import Mathlib

/-!
Verification of the blocked reduction engine in `dask/array/reductions.py`.

The source builds two-phase blocked reductions over partitioned arrays:
a per-block chunk kernel (applied with `keepdims=True`), concatenation of
the per-block partial results along the reduced axes, and an aggregate
kernel over the concatenation.  We embed the data path for one-dimensional
partitioned arrays (a list of blocks) and the structural bookkeeping of
the planner, and prove the spec's claims about them.
-/

namespace DaskRed

/-! ### NumPy kernels on one-dimensional blocks

A one-dimensional in-memory block is a `List ℤ`.  `np.sum`, `np.min`,
`np.max`, `np.argmin`, `np.argmax` over a whole 1-D block are embedded as
list folds.  NumPy raises on an empty array for min/max/argmin/argmax; the
claims only evaluate them on non-empty blocks, and we return a default
value on `[]` instead of threading an exception through the arg pipeline. -/

def np_sum (l : List ℤ) : ℤ := l.sum

def np_min : List ℤ → ℤ
  | [] => 0
  | x :: xs => xs.foldl min x

def np_max : List ℤ → ℤ
  | [] => 0
  | x :: xs => xs.foldl max x

/-- `np.argmin` over a 1-D block: index of the first occurrence of the
minimum (NumPy's tie-break is first occurrence). -/
def np_argmin (l : List ℤ) : ℕ := l.indexOf (np_min l)

/-- `np.argmax` over a 1-D block: index of the first occurrence of the
maximum. -/
def np_argmax (l : List ℤ) : ℕ := l.indexOf (np_max l)

/-! ### The blocked-sum data path (`reduction` applied to `np.sum`)

For a 1-D array partitioned into blocks, `reduction(x, np.sum, np.sum,
axis=0)` applies the chunk kernel per block with `keepdims=True` (so each
partial result is a length-1 array), concatenates the partial results
along the reduced axis with `_concatenate2`, and applies the aggregate
kernel to the concatenation. -/

/-- Chunk phase for `sum` on one 1-D block with `keepdims=True`:
`np.sum(block, axis=0, keepdims=True)` is the length-1 array holding the
block's sum. -/
def sum_chunk (block : List ℤ) : List ℤ := [np_sum block]

/-- Modelled from the spec: `_concatenate2` from `dask.array.core` (not
under `src/`), the block concatenation primitive that joins same-shape
block results arranged along one axis into one contiguous block. -/
def concatenate2 (parts : List (List ℤ)) : List ℤ := parts.flatten

/-- The full blocked data path for `sum` over a 1-D partitioned array:
chunk per block (`keepdims=True`), concatenate, aggregate. -/
def blocked_sum (blocks : List (List ℤ)) : ℤ :=
  np_sum (concatenate2 (blocks.map sum_chunk))

/-! ### `arg_aggregate` and the Block Offset Table -/

/-- The Block Offset Table of `arg_aggregate`:
`offsets = np.add.accumulate([0] + list(dims)[:-1])`.  Cumulative sums of
`0` followed by all block extents but the last, i.e. `offset[i]` is the
total extent of blocks `0..i-1`. -/
def block_offsets (dims : List ℕ) : List ℕ :=
  List.scanl (· + ·) 0 dims.dropLast

/-- `arg_aggregate(func, argfunc, dims, pairs)` for a 1-D partitioned
array (each pair is a scalar `(extremum value, local index)` per block):
unzip the pairs, pick the winning block with `argfunc` over the stacked
values, and `np.choose` the winning local index plus that block's offset.
As in the source, the `func` argument is unused in the body. -/
def arg_aggregate (func : List ℤ → ℤ) (argfunc : List ℤ → ℕ) (dims : List ℕ)
    (pairs : List (ℤ × ℕ)) : ℕ :=
  let mins := pairs.map Prod.fst
  let argmins := pairs.map Prod.snd
  let args := argfunc mins
  let offsets := block_offsets dims
  argmins.getD args 0 + offsets.getD args 0

/-! ### `arg_reduction` and the `argmin`/`argmax` wrappers

`arg_reduction(a, func, argfunc, axis=0)` first validates that `axis` is a
single integer and raises `ValueError` otherwise, before building any
block-local `argreduce` task or the `arg_aggregate` task; then it computes
per-block `(extremum, local index)` pairs and merges them via
`arg_aggregate`.  A Python `axis` argument is `None`, an `int`, or a tuple
of ints. -/

inductive PyAxis where
  | none
  | int (i : ℕ)
  | tuple (l : List ℕ)
deriving DecidableEq

/-- The `ValueError` message raised by `arg_reduction` on a non-integer
axis. -/
def arg_reduction_msg : String :=
  "Must specify integer axis= keyword argument.\nFor example:\n  Before:  x.argmin()\n  After:   x.argmin(axis=0)\n"

/-- The plan built by `arg_reduction` on the success path: the per-block
block-local `(extremum value, local index)` tasks and the output of the
`arg_aggregate` task. -/
structure ArgReductionPlan where
  pairs : List (ℤ × ℕ)
  result : ℕ
deriving DecidableEq

/-- `arg_reduction` for a 1-D partitioned array (the only valid axis is
`0`, so the integer's value is not consulted further in this embedding):
a non-integer `axis` raises before any task is created; otherwise each
block yields its `argreduce` pair and `arg_aggregate` merges them with
`dims = a.blockdims[axis]`, the list of block lengths. -/
def arg_reduction (a : List (List ℤ)) (func : List ℤ → ℤ)
    (argfunc : List ℤ → ℕ) (axis : PyAxis := PyAxis.int 0) :
    Except String ArgReductionPlan :=
  match axis with
  | PyAxis.int _ =>
      let pairs := a.map (fun block => (func block, argfunc block))
      Except.ok ⟨pairs, arg_aggregate func argfunc (a.map List.length) pairs⟩
  | _ => Except.error arg_reduction_msg

/-- `argmin(a, axis=None)` delegates to `arg_reduction` with
`np.min`/`np.argmin`; its default axis is `None`. -/
def argmin (a : List (List ℤ)) (axis : PyAxis := PyAxis.none) :
    Except String ArgReductionPlan :=
  arg_reduction a np_min np_argmin axis

/-- `argmax(a, axis=None)` delegates to `arg_reduction` with
`np.max`/`np.argmax`; its default axis is `None`. -/
def argmax (a : List (List ℤ)) (axis : PyAxis := PyAxis.none) :
    Except String ArgReductionPlan :=
  arg_reduction a np_max np_argmax axis

/-! ### The variance chunk/aggregate kernels -/

/-- The per-block Partial-Result Record of `var`: `x` the block sum,
`x2` the block sum of squares, `n` the element count (as `np.ones_like`
summed).  Python computes these in double precision; we embed the exact
arithmetic over `ℚ`. -/
structure VarRecord where
  x : ℚ
  x2 : ℚ
  n : ℚ
deriving DecidableEq

/-- The `chunk` kernel of `var` on one 1-D block. -/
def var_chunk (A : List ℚ) : VarRecord :=
  { x := A.sum
    x2 := (A.map (fun v => v ^ 2)).sum
    n := (A.map (fun _ => (1 : ℚ))).sum }

/-- The `agg` kernel of `var` applied to the concatenation of per-block
records: sums `x`, `x2`, `n` across the records, computes
`x2/n - (x/n)**2`, and rescales by `n / (n - ddof)` when `ddof` is
truthy (nonzero). -/
def var_agg (ddof : ℤ) (A : List VarRecord) : ℚ :=
  let x := (A.map VarRecord.x).sum
  let x2 := (A.map VarRecord.x2).sum
  let n := (A.map VarRecord.n).sum
  let result := x2 / n - (x / n) ^ 2
  if ddof ≠ 0 then result * n / (n - (ddof : ℚ)) else result

/-! ### `vnorm`

`vnorm(a, ord=None, axis=None, keepdims=False)` dispatches on `ord`:
`None`/`'fro'` are first normalized to `2`; then `inf` takes
`max(abs(a))`, `-inf` takes `min(abs(a))`, `1` takes `sum(abs(a))`,
`ord % 2 == 0` takes `sum(a**ord)**(1./ord)` (no `abs`), and everything
else takes `sum(abs(a)**ord)**(1./ord)`.  We embed the array as a
`List ℝ` fully reduced, the numeric `ord` as a rational (a Python float
satisfies `ord % 2 == 0` exactly when it is an even integer), the float
powers as real `rpow`, and Python's fallible `1./ord` as an `Except`:
`1./0` raises `ZeroDivisionError`. -/

/-- A Python `ord` argument to `vnorm`: `None`, the string `'fro'`,
`np.inf`, `-np.inf`, or a number. -/
inductive NormOrd where
  | none
  | fro
  | inf
  | negInf
  | num (q : ℚ)
deriving DecidableEq

/-- Python float division, which raises `ZeroDivisionError` on a zero
divisor. -/
def pyDivQ (x y : ℚ) : Except String ℚ :=
  if y = 0 then Except.error "ZeroDivisionError: float division by zero"
  else Except.ok (x / y)

/-- `np.max` over a 1-D real block; raises on an empty array. -/
noncomputable def np_maxR : List ℝ → Except String ℝ
  | [] => Except.error "zero-size array to reduction operation"
  | x :: xs => Except.ok (xs.foldl max x)

/-- `np.min` over a 1-D real block; raises on an empty array. -/
noncomputable def np_minR : List ℝ → Except String ℝ
  | [] => Except.error "zero-size array to reduction operation"
  | x :: xs => Except.ok (xs.foldl min x)

/-- The numeric-`ord` tail of `vnorm`'s dispatch: the `ord == 1`,
`ord % 2 == 0` and odd/other branches.  (A numeric `ord` never equals
`np.inf` or `-np.inf`, which are separate `NormOrd` constructors, so the
infinity branches cannot fire here.) -/
noncomputable def vnormNum (a : List ℝ) (q : ℚ) : Except String ℝ :=
  if q = 1 then Except.ok ((a.map (fun x => |x|)).sum)
  else if q.den = 1 ∧ q.num % 2 = 0 then
    match pyDivQ 1 q with
    | Except.error e => Except.error e
    | Except.ok e => Except.ok (((a.map (fun x => x ^ (q : ℝ))).sum) ^ (e : ℝ))
  else
    match pyDivQ 1 q with
    | Except.error e => Except.error e
    | Except.ok e =>
        Except.ok (((a.map (fun x => |x| ^ (q : ℝ))).sum) ^ (e : ℝ))

/-- `vnorm`: `None` and `'fro'` are normalized to `ord = 2`, the two
infinities take `max(abs(a))` and `min(abs(a))`, and numeric orders go
through `vnormNum`. -/
noncomputable def vnorm (a : List ℝ) (ord : NormOrd) : Except String ℝ :=
  match ord with
  | NormOrd.none => vnormNum a 2
  | NormOrd.fro => vnormNum a 2
  | NormOrd.inf => np_maxR (a.map (fun x => |x|))
  | NormOrd.negInf => np_minR (a.map (fun x => |x|))
  | NormOrd.num q => vnormNum a q

/-! ### Planner axis bookkeeping (`reduction`)

`reduction(x, chunk, aggregate, axis, keepdims)` computes the aggregate
over `inds2 = tuple(i for i in inds if i not in axis)` — the output of
phase 2 lives on the non-reduced axes only — and, when `keepdims` is
set, rewrites every output key `k` to
`(k[0],) + insert_many(k[1:], axis, 0)` and the output block-extent list
to `insert_many(result.blockdims, axis, [1])`. -/

/-- Modelled from the spec: `insert_many` from `dask.array.core` (not
under `src/`): returns a copy of the sequence with the given element
inserted at each of the given ascending positions, so that the element
occupies exactly those positions in the result. -/
def insert_many {α : Type} (seq : List α) (axes : List ℕ) (elem : α) :
    List α :=
  axes.foldl (fun acc i => List.insertIdx i elem acc) seq

/-- Modelled from the spec: the index structure produced by the blocked
array builder (`atop`, not under `src/`) for the aggregate step of
`reduction`: following `inds2 = tuple(i for i in inds if i not in axis)`,
only entries at non-reduced absolute positions are kept.
`dropAxesFrom axes i xs` removes from `xs` every entry whose absolute
position (positions starting at `i`) lies in `axes`. -/
def dropAxesFrom {α : Type} (axes : List ℕ) : ℕ → List α → List α
  | _, [] => []
  | i, x :: xs =>
      if i ∈ axes then dropAxesFrom axes (i + 1) xs
      else x :: dropAxesFrom axes (i + 1) xs

/-- The per-axis structure of `reduction`'s phase-2 output: the entries
at reduced-axis positions are removed. -/
def drop_axes {α : Type} (bd : List α) (axes : List ℕ) : List α :=
  dropAxesFrom axes 0 bd

/-- The planner's output block-extent structure: with `keepdims` the
aggregate result's blockdims get a `[1]` inserted at each reduced
position (`insert_many(result.blockdims, axis, [1])`); without
`keepdims` the reduced positions are dropped. -/
def reduction_blockdims (bd : List (List ℕ)) (axes : List ℕ)
    (keepdims : Bool) : List (List ℕ) :=
  let dropped := drop_axes bd axes
  if keepdims then insert_many dropped axes [1] else dropped

/-- The planner's output key structure: with `keepdims` each output key's
block-index tuple gets a literal `0` inserted at each reduced position
(`k2 = (k[0],) + insert_many(k[1:], axis, 0)`); without `keepdims` the
key tuple already omits the reduced positions. -/
def reduction_out_key (idx : List ℕ) (axes : List ℕ) (keepdims : Bool) :
    List ℕ :=
  if keepdims then insert_many idx axes 0 else idx

/-- Count of entries of `axes` lying in the half-open range
`[lo, hi)` (proof bookkeeping for the positional lemmas below). -/
def countIn (axes : List ℕ) (lo hi : ℕ) : ℕ :=
  (axes.filter (fun a => decide (lo ≤ a ∧ a < hi))).length

/-! ### The task dictionary and the `keepdims` key rewriting

A task graph is a dictionary from Block Keys `(array name, block index
tuple)` to tasks.  The `keepdims` branch of `reduction` works on
`dsk = result.dask.copy()` and, for every output key `k` of the result,
pops the task stored at `k` and re-inserts it under the rewritten key —
same array name, a literal `0` block index at each reduced position.  We
model the dictionary as an association list up to `dict_get`. -/

abbrev BKey := String × List ℕ

/-- Dictionary lookup. -/
def dict_get {τ : Type} : List (BKey × τ) → BKey → Option τ
  | [], _ => none
  | p :: rest, k => if p.1 = k then some p.2 else dict_get rest k

/-- `dict.pop(k)`: remove the binding of `k`. -/
def dict_pop {τ : Type} : List (BKey × τ) → BKey → List (BKey × τ)
  | [], _ => []
  | p :: rest, k => if p.1 = k then dict_pop rest k else p :: dict_pop rest k

/-- `dict[k] = v`: bind `k` to `v`, replacing any previous binding. -/
def dict_set {τ : Type} (d : List (BKey × τ)) (k : BKey) (v : τ) :
    List (BKey × τ) :=
  (k, v) :: dict_pop d k

/-- The `keepdims` key-rewriting loop of `reduction`, acting on a copy of
the result's task dictionary: for every output key `k` in
`flatten(result._keys())`, `dsk[k2] = dsk.pop(k)` with
`k2 = (k[0],) + insert_many(k[1:], axis, 0)`. -/
def keepdims_rewrite {τ : Type} (axes : List ℕ) (out_keys : List BKey)
    (dsk : List (BKey × τ)) : List (BKey × τ) :=
  out_keys.foldl (fun d k =>
    match dict_get d k with
    | some v => dict_set (dict_pop d k) (k.1, insert_many k.2 axes 0) v
    | none => d) dsk

end DaskRed

namespace DaskRed

/-! ### Helper lemmas -/

theorem blocked_sum_eq_join_sum (blocks : List (List ℤ)) :
    blocked_sum blocks = np_sum blocks.flatten := by
  induction blocks with
  | nil => rfl
  | cons b bs ih =>
      simp only [blocked_sum, np_sum, concatenate2, sum_chunk, List.map_cons,
        List.flatten, List.sum_cons, List.sum_append] at ih ⊢
      simp [ih]

theorem scanl_getD_zero (f : ℕ → ℕ → ℕ) (a : ℕ) (l : List ℕ) :
    (List.scanl f a l).getD 0 0 = a := by
  cases l <;> rfl

theorem scanl_getD_succ (l : List ℕ) :
    ∀ (a i : ℕ), i < l.length →
      (List.scanl (· + ·) a l).getD (i + 1) 0 =
        (List.scanl (· + ·) a l).getD i 0 + l.getD i 0 := by
  induction l with
  | nil => intro a i h; simp at h
  | cons x xs ih =>
      intro a i h
      cases i with
      | zero =>
          simp [List.scanl_cons, scanl_getD_zero]
      | succ j =>
          simp only [List.scanl_cons, List.length_cons] at h ⊢
          have hj : j < xs.length := by omega
          simpa using ih (a + x) j hj

theorem dropLast_getD (l : List ℕ) (i : ℕ) (h : i + 1 < l.length) :
    l.dropLast.getD i 0 = l.getD i 0 := by
  have hl : i < l.dropLast.length := by
    simp only [List.length_dropLast]; omega
  have h2 : i < l.length := by omega
  rw [List.getD_eq_getElem _ _ hl, List.getD_eq_getElem _ _ h2,
    List.getElem_dropLast]

/-! ### Claim theorems C1-C3 -/

/-- C1: the blocked two-phase reduction for `sum` (chunk kernel per block
with `keepdims=True`, concatenation of the partial results along the
reduced axis, aggregate kernel over the concatenation) equals the
single-pass sum over the unpartitioned array, for every partitioning;
in particular, blocks `[1,2,3]` and `[4,5,6]` give chunk results `6` and
`15` and aggregate `21 = sum [1..6]`. -/
theorem c1_blocked_sum_correct :
    (∀ blocks : List (List ℤ), blocked_sum blocks = np_sum blocks.flatten) ∧
    sum_chunk [1, 2, 3] = [6] ∧ sum_chunk [4, 5, 6] = [15] ∧
    concatenate2 [sum_chunk [1, 2, 3], sum_chunk [4, 5, 6]] = [6, 15] ∧
    blocked_sum [[1, 2, 3], [4, 5, 6]] = 21 ∧
    np_sum [1, 2, 3, 4, 5, 6] = 21 :=
  ⟨blocked_sum_eq_join_sum, by decide, by decide, by decide, by decide,
    by decide⟩

/-- C2: for the 1-D array with blocks `[4,3,5]` and `[3,5,1]`,
`arg_aggregate` with `np.min`/`np.argmin` and block extents `(3,3)`
computes the block-local pairs `(3, 1)` and `(1, 2)`, selects block `1`
(because `1 < 3`), and returns the global flat index
`2 + offset[1] = 2 + 3 = 5`. -/
theorem c2_arg_aggregate_concrete :
    np_min [4, 3, 5] = 3 ∧ np_argmin [4, 3, 5] = 1 ∧
    np_min [3, 5, 1] = 1 ∧ np_argmin [3, 5, 1] = 2 ∧
    np_argmin [3, 1] = 1 ∧
    block_offsets [3, 3] = [0, 3] ∧
    arg_aggregate np_min np_argmin [3, 3] [(3, 1), (1, 2)] = 2 + 3 ∧
    arg_aggregate np_min np_argmin [3, 3] [(3, 1), (1, 2)] = 5 := by
  decide

/-- C3: for every non-empty list of block extents, the Block Offset Table
of `arg_aggregate` satisfies `offset[0] = 0` and, for every `i` with
`i + 1 < len(dims)`, `offset[i+1] - offset[i]` equals the extent of
block `i`. -/
theorem c3_block_offsets_invariant (dims : List ℕ) (_hne : dims ≠ []) :
    (block_offsets dims).getD 0 0 = 0 ∧
    ∀ i, i + 1 < dims.length →
      (block_offsets dims).getD (i + 1) 0 - (block_offsets dims).getD i 0 =
        dims.getD i 0 := by
  constructor
  · exact scanl_getD_zero _ 0 dims.dropLast
  · intro i h
    have hi : i < dims.dropLast.length := by
      simp only [List.length_dropLast]; omega
    have h1 := scanl_getD_succ dims.dropLast 0 i hi
    have h2 := dropLast_getD dims i h
    simp only [block_offsets]
    omega

/-- Witness for C3 at `dims = [3, 3]`, `i = 0`. -/
theorem c3_block_offsets_invariant_witness :
    (block_offsets [3, 3]).getD 0 0 = 0 ∧
    (block_offsets [3, 3]).getD 1 0 - (block_offsets [3, 3]).getD 0 0 = 3 := by
  have h := c3_block_offsets_invariant [3, 3] (by decide)
  exact ⟨h.1, h.2 0 (by decide)⟩

/-- C6: for every array, every pair of kernels, and every axis argument
that is not a single integer (`None` or a tuple), `arg_reduction` returns
the `ValueError` synchronously, with no block-local or aggregation task
created, and the message carries the corrective usage hint
`x.argmin(axis=0)`. -/
theorem c6_arg_reduction_invalid_axis (a : List (List ℤ))
    (func : List ℤ → ℤ) (argfunc : List ℤ → ℕ) (axis : PyAxis)
    (h : ∀ i, axis ≠ PyAxis.int i) :
    arg_reduction a func argfunc axis = Except.error arg_reduction_msg ∧
    ∃ pre post : String,
      arg_reduction_msg = pre ++ "x.argmin(axis=0)" ++ post := by
  refine ⟨?_, ?_⟩
  · cases axis with
    | int i => exact absurd rfl (h i)
    | none => rfl
    | tuple l => rfl
  · refine ⟨ "Must specify integer axis= keyword argument.\nFor example:\n  Before:  x.argmin()\n  After:   ", "\n", ?_⟩
    rfl

/-- Witness for C6 at `a = [[1, 2]]`, the `np.min`/`np.argmin` kernels and
`axis = None`. -/
theorem c6_arg_reduction_invalid_axis_witness :
    arg_reduction [[1, 2]] np_min np_argmin PyAxis.none =
      Except.error arg_reduction_msg ∧
    ∃ pre post : String,
      arg_reduction_msg = pre ++ "x.argmin(axis=0)" ++ post :=
  c6_arg_reduction_invalid_axis [[1, 2]] np_min np_argmin PyAxis.none
    (fun _ h => PyAxis.noConfusion h)

/-- C10: calling the public `argmin` or `argmax` wrapper without an axis
argument always raises the invalid-axis `ValueError`, because the default
axis is `None`, which fails `arg_reduction`'s integer check; no
whole-array arg-reduction is ever computed this way. -/
theorem c10_argmin_argmax_default_axis_raises (a : List (List ℤ)) :
    argmin a = Except.error arg_reduction_msg ∧
    argmax a = Except.error arg_reduction_msg :=
  ⟨rfl, rfl⟩

/-- C7: the variance aggregate kernel over the concatenated per-block
records returns `(sum x2)/(sum n) - ((sum x)/(sum n))^2`; with nonzero
`ddof` the result is additionally multiplied by `n / (n - ddof)`, and
with `ddof = 0` no rescaling occurs. -/
theorem c7_var_aggregate (blocks : List (List ℚ)) (ddof : ℤ) :
    (var_agg 0 (blocks.map var_chunk) =
      ((blocks.map var_chunk).map VarRecord.x2).sum /
          ((blocks.map var_chunk).map VarRecord.n).sum -
        (((blocks.map var_chunk).map VarRecord.x).sum /
            ((blocks.map var_chunk).map VarRecord.n).sum) ^ 2) ∧
    (ddof ≠ 0 →
      var_agg ddof (blocks.map var_chunk) =
        (((blocks.map var_chunk).map VarRecord.x2).sum /
            ((blocks.map var_chunk).map VarRecord.n).sum -
          (((blocks.map var_chunk).map VarRecord.x).sum /
              ((blocks.map var_chunk).map VarRecord.n).sum) ^ 2) *
          ((blocks.map var_chunk).map VarRecord.n).sum /
          (((blocks.map var_chunk).map VarRecord.n).sum - (ddof : ℚ))) := by
  constructor
  · simp [var_agg]
  · intro h
    simp [var_agg, h]

/-- Witness for C7 at blocks `[[1, 2], [3]]` and `ddof = 1`: the records
are `(x,x2,n) = (3,5,2)` and `(3,9,1)`, the pooled sums are `x = 6`,
`x2 = 14`, `n = 3`, and `(14/3 - (6/3)^2) * 3 / (3 - 1) = 1`. -/
theorem c7_var_aggregate_witness :
    var_agg 1 ([[(1 : ℚ), 2], [3]].map var_chunk) = 1 := by
  have h := (c7_var_aggregate [[(1 : ℚ), 2], [3]] 1).2 (by decide)
  rw [h]
  norm_num [var_chunk]

/-- Counterexample to C4 as stated: at the concrete input `a = [1]`,
`vnorm(a, ord=0)` does not compute `sum(abs(a)**0) ** (1/ord)` in the
odd/other branch; since `0 % 2 == 0`, it takes the even-integer branch,
where the eager exponent computation `1./ord` raises
`ZeroDivisionError`, so no value is produced at all. -/
theorem c4_ord_zero_counterexample :
    vnorm [(1 : ℝ)] (NormOrd.num 0) =
      Except.error "ZeroDivisionError: float division by zero" := by
  simp [vnorm, vnormNum, pyDivQ]

/-- C4 (amended): `ord = 0` is not specially handled, but because
`0 % 2 == 0` it falls into the even-integer branch, not the odd/other
branch; there the exponent `1./ord` raises `ZeroDivisionError`, so for
every array `vnorm(a, ord=0)` fails instead of computing a count-like
value. -/
theorem c4_ord_zero_even_branch (a : List ℝ) :
    ((0 : ℚ).den = 1 ∧ (0 : ℚ).num % 2 = 0) ∧
    vnorm a (NormOrd.num 0) =
      Except.error "ZeroDivisionError: float division by zero" := by
  refine ⟨⟨rfl, rfl⟩, ?_⟩
  simp [vnorm, vnormNum, pyDivQ]

/-- C8: the `vnorm` special cases: `ord = inf` gives `max(abs(a))`,
`ord = -inf` gives `min(abs(a))`, `ord = 1` gives `sum(abs(a))`, and
`ord = 2` — as well as `ord = None` and `ord = 'fro'`, which are treated
as `ord = 2` — gives `sqrt(sum(a**2))`, the even branch skipping `abs`. -/
theorem c8_vnorm_special_cases (a : List ℝ) :
    vnorm a NormOrd.inf = np_maxR (a.map (fun x => |x|)) ∧
    vnorm a NormOrd.negInf = np_minR (a.map (fun x => |x|)) ∧
    vnorm a (NormOrd.num 1) = Except.ok ((a.map (fun x => |x|)).sum) ∧
    vnorm a (NormOrd.num 2) =
      Except.ok (Real.sqrt ((a.map (fun x => x ^ 2)).sum)) ∧
    vnorm a NormOrd.none = vnorm a (NormOrd.num 2) ∧
    vnorm a NormOrd.fro = vnorm a (NormOrd.num 2) := by
  refine ⟨rfl, rfl, by simp [vnorm, vnormNum], ?_, rfl, rfl⟩
  have hmap : (fun x : ℝ => x ^ ((2 : ℚ) : ℝ)) = fun x : ℝ => x ^ 2 := by
    funext x
    rw [show ((2 : ℚ) : ℝ) = (2 : ℝ) by norm_num, Real.rpow_two]
  have hhalf : (((1 : ℚ) / 2 : ℚ) : ℝ) = 1 / 2 := by norm_num
  simp only [vnorm, vnormNum, pyDivQ]
  norm_num [hmap, hhalf, Real.sqrt_eq_rpow]

/-! ### Positional lemmas for `insert_many` and `dropAxesFrom` -/

theorem nodup_length_le_of_mem_Ico (l : List ℕ) (lo U : ℕ) (hnd : l.Nodup)
    (hmem : ∀ x ∈ l, lo ≤ x ∧ x < U) : l.length ≤ U - lo := by
  have hsub : ∀ x ∈ l.toFinset, x ∈ Finset.Ico lo U := by
    intro x hx
    exact Finset.mem_Ico.2 (hmem x (List.mem_toFinset.1 hx))
  calc l.length = l.toFinset.card := (List.toFinset_card_of_nodup hnd).symm
    _ ≤ (Finset.Ico lo U).card := Finset.card_le_card hsub
    _ = U - lo := Nat.card_Ico lo U

theorem pairwise_lt_head_le (as : List ℕ) (a n : ℕ)
    (hs : (a :: as).Pairwise (· < ·))
    (hb : ∀ x ∈ a :: as, x < n + (a :: as).length) : a ≤ n := by
  have hpc := List.pairwise_cons.1 hs
  have hnd : as.Nodup := hpc.2.imp (fun h => ne_of_lt h)
  have hmem : ∀ x ∈ as, a + 1 ≤ x ∧ x < n + (as.length + 1) := by
    intro x hx
    exact ⟨hpc.1 x hx, by simpa using hb x (List.mem_cons_of_mem a hx)⟩
  have hlen := nodup_length_le_of_mem_Ico as (a + 1) (n + (as.length + 1))
    hnd hmem
  have ha := hb a (List.mem_cons_self _ _)
  simp only [List.length_cons] at ha
  omega

theorem insert_many_cons {α : Type} (seq : List α) (a : ℕ) (as : List ℕ)
    (elem : α) :
    insert_many seq (a :: as) elem =
      insert_many (List.insertIdx a elem seq) as elem := rfl

theorem insert_many_length {α : Type} (elem : α) :
    ∀ (axes : List ℕ) (seq : List α), axes.Pairwise (· < ·) →
      (∀ ax ∈ axes, ax < seq.length + axes.length) →
      (insert_many seq axes elem).length = seq.length + axes.length := by
  intro axes
  induction axes with
  | nil => intro seq _ _; rfl
  | cons a as ih =>
      intro seq hs hb
      have hpc := List.pairwise_cons.1 hs
      have ha : a ≤ seq.length := pairwise_lt_head_le as a seq.length hs hb
      have hlen : (List.insertIdx a elem seq).length = seq.length + 1 :=
        List.length_insertIdx a seq ha
      rw [insert_many_cons, ih (List.insertIdx a elem seq) hpc.2 ?_, hlen]
      · simp only [List.length_cons]; omega
      · intro ax hax
        have := hb ax (List.mem_cons_of_mem a hax)
        simp only [List.length_cons] at this
        omega

theorem insert_many_getD_of_forall_lt {α : Type} (elem d : α) :
    ∀ (axes : List ℕ) (seq : List α) (j : ℕ), (∀ ax ∈ axes, j < ax) →
      j < seq.length →
      (insert_many seq axes elem).getD j d = seq.getD j d := by
  intro axes
  induction axes with
  | nil => intro seq j _ _; rfl
  | cons a as ih =>
      intro seq j hlt hj
      have hja : j < a := hlt a (List.mem_cons_self _ _)
      have hj' : j < (List.insertIdx a elem seq).length :=
        lt_of_lt_of_le hj (List.length_le_length_insertIdx seq elem a)
      rw [insert_many_cons,
        ih (List.insertIdx a elem seq) j
          (fun ax hax => hlt ax (List.mem_cons_of_mem a hax)) hj',
        List.getD_eq_getElem _ _ hj', List.getD_eq_getElem _ _ hj,
        List.getElem_insertIdx_of_lt seq elem a j hja hj]

theorem insert_many_getD_mem {α : Type} (elem d : α) :
    ∀ (axes : List ℕ) (seq : List α) (j : ℕ), axes.Pairwise (· < ·) →
      (∀ ax ∈ axes, ax < seq.length + axes.length) → j ∈ axes →
      (insert_many seq axes elem).getD j d = elem := by
  intro axes
  induction axes with
  | nil => intro seq j _ _ hj; simp at hj
  | cons a as ih =>
      intro seq j hs hb hj
      have hpc := List.pairwise_cons.1 hs
      have ha : a ≤ seq.length := pairwise_lt_head_le as a seq.length hs hb
      have hlen : (List.insertIdx a elem seq).length = seq.length + 1 :=
        List.length_insertIdx a seq ha
      rcases List.mem_cons.1 hj with hja | hjas
      · subst hja
        have hjlen : j < (List.insertIdx j elem seq).length := by omega
        rw [insert_many_cons,
          insert_many_getD_of_forall_lt elem d as (List.insertIdx j elem seq)
            j hpc.1 hjlen,
          List.getD_eq_getElem _ _ hjlen,
          List.getElem_insertIdx_self seq elem j ha]
      · rw [insert_many_cons]
        refine ih (List.insertIdx a elem seq) j hpc.2 ?_ hjas
        intro ax hax
        have := hb ax (List.mem_cons_of_mem a hax)
        simp only [List.length_cons] at this
        omega

theorem insert_many_getD_not_mem {α : Type} (elem d : α) :
    ∀ (axes : List ℕ) (seq : List α) (j : ℕ), axes.Pairwise (· < ·) →
      (∀ ax ∈ axes, ax < seq.length + axes.length) → j ∉ axes →
      j < seq.length + axes.length →
      (insert_many seq axes elem).getD j d =
        seq.getD (j - (axes.filter (fun x => decide (x < j))).length) d := by
  intro axes
  induction axes with
  | nil => intro seq j _ _ _ _; simp [insert_many]
  | cons a as ih =>
      intro seq j hs hb hjn hj
      have hpc := List.pairwise_cons.1 hs
      have ha : a ≤ seq.length := pairwise_lt_head_le as a seq.length hs hb
      have hlen : (List.insertIdx a elem seq).length = seq.length + 1 :=
        List.length_insertIdx a seq ha
      have hbnd : ∀ ax ∈ as,
          ax < (List.insertIdx a elem seq).length + as.length := by
        intro ax hax
        have := hb ax (List.mem_cons_of_mem a hax)
        simp only [List.length_cons] at this
        omega
      have hjn' : j ∉ as := fun h => hjn (List.mem_cons_of_mem a h)
      have hjne : j ≠ a := fun h => hjn (h ▸ List.mem_cons_self a as)
      have hja : j < (List.insertIdx a elem seq).length + as.length := by
        simp only [List.length_cons] at hj
        omega
      rw [insert_many_cons, ih (List.insertIdx a elem seq) j hpc.2 hbnd hjn' hja]
      by_cases hlt : j < a
      · have hfas : as.filter (fun x => decide (x < j)) = [] := by
          refine List.filter_eq_nil_iff.2 ?_
          intro x hx
          have := hpc.1 x hx
          simp only [decide_eq_true_eq]
          omega
        have hna : ¬ a < j := by omega
        have hfcons : (a :: as).filter (fun x => decide (x < j)) = [] := by
          simp [List.filter_cons, hna, hfas]
        rw [hfas, hfcons]
        simp only [List.length_nil, Nat.sub_zero]
        have hjs : j < seq.length := by omega
        have hjs' : j < (List.insertIdx a elem seq).length := by omega
        rw [List.getD_eq_getElem _ _ hjs', List.getD_eq_getElem _ _ hjs,
          List.getElem_insertIdx_of_lt seq elem a j hlt hjs]
      · have haj : a < j := by omega
        have hfcons : (a :: as).filter (fun x => decide (x < j)) =
            a :: as.filter (fun x => decide (x < j)) := by
          simp [List.filter_cons, haj]
        have hndas : as.Nodup := hpc.2.imp (fun h => ne_of_lt h)
        have hndf : (as.filter (fun x => decide (x < j))).Nodup :=
          hndas.filter _
        have hmemf : ∀ x ∈ as.filter (fun x => decide (x < j)),
            a + 1 ≤ x ∧ x < j := by
          intro x hx
          have hx1 := List.mem_of_mem_filter hx
          have hx2 := List.of_mem_filter hx
          simp only [decide_eq_true_eq] at hx2
          exact ⟨hpc.1 x hx1, hx2⟩
        have hcnt_lt := nodup_length_le_of_mem_Ico _ (a + 1) j hndf hmemf
        have hsplit :=
          List.length_eq_length_filter_add (l := as) (fun x => decide (x < j))
        have hndf2 : (as.filter (fun x => !(decide (x < j)))).Nodup :=
          hndas.filter _
        have hmemf2 : ∀ x ∈ as.filter (fun x => !(decide (x < j))),
            j + 1 ≤ x ∧ x < seq.length + 1 + as.length := by
          intro x hx
          have hx1 := List.mem_of_mem_filter hx
          have hx2 := List.of_mem_filter hx
          simp only [Bool.not_eq_true', decide_eq_false_iff_not] at hx2
          have hxa := hb x (List.mem_cons_of_mem a hx1)
          simp only [List.length_cons] at hxa
          have hxj : x ≠ j := fun h => hjn' (h ▸ hx1)
          refine ⟨by omega, by omega⟩
        have hcnt2 := nodup_length_le_of_mem_Ico _ (j + 1)
          (seq.length + 1 + as.length) hndf2 hmemf2
        rw [hfcons]
        simp only [List.length_cons]
        set cnt := (as.filter (fun x => decide (x < j))).length with hcnt
        have hii : j - cnt - 1 < seq.length := by omega
        have h1 : (List.insertIdx a elem seq).getD (j - cnt) d =
            (List.insertIdx a elem seq).getD (a + (j - cnt - a - 1) + 1) d := by
          rw [show a + (j - cnt - a - 1) + 1 = j - cnt from by omega]
        have h2 : seq.getD (j - (cnt + 1)) d =
            seq.getD (a + (j - cnt - a - 1)) d := by
          rw [show a + (j - cnt - a - 1) = j - (cnt + 1) from by omega]
        have hak : a + (j - cnt - a - 1) < seq.length := by omega
        have hak1 : a + (j - cnt - a - 1) + 1 <
            (List.insertIdx a elem seq).length := by omega
        rw [h1, h2, List.getD_eq_getElem _ _ hak1, List.getD_eq_getElem _ _ hak,
          List.getElem_insertIdx_add_succ seq elem a (j - cnt - a - 1) hak]

theorem countIn_eq_countP (axes : List ℕ) (lo hi : ℕ) :
    countIn axes lo hi = axes.countP (fun a => decide (lo ≤ a ∧ a < hi)) :=
  (List.countP_eq_length_filter _ _).symm

theorem countIn_zero_of_le (axes : List ℕ) (lo hi : ℕ) (h : hi ≤ lo) :
    countIn axes lo hi = 0 := by
  have hnil : axes.filter (fun a => decide (lo ≤ a ∧ a < hi)) = [] := by
    refine List.filter_eq_nil_iff.2 ?_
    intro x _
    simp only [decide_eq_true_eq]
    omega
  rw [countIn, hnil]
  rfl

theorem countIn_le (axes : List ℕ) (lo hi : ℕ) (hnd : axes.Nodup) :
    countIn axes lo hi ≤ hi - lo := by
  refine nodup_length_le_of_mem_Ico _ lo hi (hnd.filter _) ?_
  intro x hx
  have := List.of_mem_filter hx
  simpa only [decide_eq_true_eq] using this

theorem countIn_succ_lo (i U : ℕ) (hiU : i < U) :
    ∀ axes : List ℕ, axes.Nodup →
      countIn axes i U =
        countIn axes (i + 1) U + (if i ∈ axes then 1 else 0) := by
  intro axes
  induction axes with
  | nil => intro _; simp [countIn]
  | cons b rest ih =>
      intro hnd
      obtain ⟨hbr, hndr⟩ := List.nodup_cons.1 hnd
      have ihr := ih hndr
      simp only [countIn_eq_countP, List.countP_cons] at ihr ⊢
      by_cases hbi : b = i
      · subst hbi
        have h1 : decide (b ≤ b ∧ b < U) = true := by
          simp only [decide_eq_true_eq]
          omega
        have h2 : decide (b + 1 ≤ b ∧ b < U) = false := by
          simp only [decide_eq_false_iff_not]
          omega
        have h3 : b ∈ b :: rest := List.mem_cons_self b rest
        have hcongr : rest.countP (fun a => decide (b ≤ a ∧ a < U)) =
            rest.countP (fun a => decide (b + 1 ≤ a ∧ a < U)) := by
          refine List.countP_congr ?_
          intro a hamem
          have hne : a ≠ b := fun h => hbr (h ▸ hamem)
          simp only [decide_eq_true_eq]
          constructor <;> (intro h2; omega)
        rw [h1, h2, hcongr]
        simp [h3]
      · have hpb : decide (i ≤ b ∧ b < U) = decide (i + 1 ≤ b ∧ b < U) := by
          simp only [decide_eq_decide]
          omega
        have hmem_if : (if i ∈ b :: rest then (1 : ℕ) else 0) =
            (if i ∈ rest then 1 else 0) := by
          by_cases h : i ∈ rest
          · rw [if_pos (List.mem_cons_of_mem b h), if_pos h]
          · rw [if_neg ?_, if_neg h]
            intro hc
            rcases List.mem_cons.1 hc with h' | h'
            · exact hbi h'.symm
            · exact h h'
        rw [hpb, hmem_if]
        omega

theorem countIn_all (axes : List ℕ) (n : ℕ) (hb : ∀ ax ∈ axes, ax < n) :
    countIn axes 0 n = axes.length := by
  have : axes.filter (fun a => decide (0 ≤ a ∧ a < n)) = axes := by
    refine List.filter_eq_self.2 ?_
    intro a ha
    simp only [decide_eq_true_eq]
    exact ⟨Nat.zero_le a, hb a ha⟩
  rw [countIn, this]

theorem dropAxesFrom_length {α : Type} (axes : List ℕ) (hnd : axes.Nodup) :
    ∀ (xs : List α) (i : ℕ),
      (dropAxesFrom axes i xs).length =
        xs.length - countIn axes i (i + xs.length) := by
  intro xs
  induction xs with
  | nil =>
      intro i
      simp only [dropAxesFrom, List.length_nil, Nat.add_zero]
      rw [countIn_zero_of_le axes i i (le_refl i)]
  | cons x rest ih =>
      intro i
      have hsplit := countIn_succ_lo i (i + (rest.length + 1))
        (by omega) axes hnd
      have hle := countIn_le axes (i + 1) ((i + 1) + rest.length) hnd
      have harg : i + (x :: rest).length = (i + 1) + rest.length := by
        simp only [List.length_cons]
        omega
      clear harg
      by_cases hmem : i ∈ axes
      · simp only [dropAxesFrom, if_pos hmem, ih (i + 1), List.length_cons]
        rw [show i + (rest.length + 1) = (i + 1) + rest.length from by omega]
          at hsplit ⊢
        rw [if_pos hmem] at hsplit
        omega
      · simp only [dropAxesFrom, if_neg hmem, List.length_cons, ih (i + 1)]
        rw [show i + (rest.length + 1) = (i + 1) + rest.length from by omega]
          at hsplit ⊢
        rw [if_neg hmem] at hsplit
        omega

theorem dropAxesFrom_getD {α : Type} (axes : List ℕ) (hnd : axes.Nodup)
    (d : α) :
    ∀ (xs : List α) (j i : ℕ), (i + j) ∉ axes → j < xs.length →
      (dropAxesFrom axes i xs).getD (j - countIn axes i (i + j)) d =
        xs.getD j d := by
  intro xs
  induction xs with
  | nil => intro j i _ hj; simp at hj
  | cons x rest ih =>
      intro j i hjn hj
      cases j with
      | zero =>
          have hi : i ∉ axes := by simpa using hjn
          have hc : countIn axes i (i + 0) = 0 :=
            countIn_zero_of_le axes i (i + 0) (by omega)
          simp only [dropAxesFrom, if_neg hi, hc]
          rfl
      | succ k =>
          have hklen : k < rest.length := by simpa using hj
          have hjn' : ((i + 1) + k) ∉ axes := by
            intro hc
            exact hjn (by
              rw [show i + (k + 1) = (i + 1) + k from by omega]
              exact hc)
          have hsplit := countIn_succ_lo i (i + (k + 1)) (by omega) axes hnd
          have hcle : countIn axes (i + 1) ((i + 1) + k) ≤ k := by
            have := countIn_le axes (i + 1) ((i + 1) + k) hnd
            omega
          rw [show i + (k + 1) = (i + 1) + k from by omega] at hsplit
          by_cases hmem : i ∈ axes
          · have hrec := ih k (i + 1) hjn' hklen
            simp only [dropAxesFrom, if_pos hmem]
            rw [if_pos hmem] at hsplit
            have hidx : (k + 1) - countIn axes i (i + (k + 1)) =
                k - countIn axes (i + 1) ((i + 1) + k) := by
              rw [show i + (k + 1) = (i + 1) + k from by omega]
              omega
            rw [hidx]
            simpa using hrec
          · have hrec := ih k (i + 1) hjn' hklen
            simp only [dropAxesFrom, if_neg hmem]
            rw [if_neg hmem] at hsplit
            have hidx : (k + 1) - countIn axes i (i + (k + 1)) =
                (k - countIn axes (i + 1) ((i + 1) + k)) + 1 := by
              rw [show i + (k + 1) = (i + 1) + k from by omega]
              omega
            rw [hidx]
            simpa using hrec

theorem dict_get_pop_ne {τ : Type} (k k' : BKey) (h : k' ≠ k) :
    ∀ d : List (BKey × τ), dict_get (dict_pop d k) k' = dict_get d k' := by
  intro d
  induction d with
  | nil => rfl
  | cons p rest ih =>
      by_cases hp : p.1 = k
      · have h2 : k ≠ k' := fun hc => h hc.symm
        simp [dict_pop, dict_get, hp, h2, ih]
      · by_cases hk' : p.1 = k'
        · simp [dict_pop, dict_get, hp, hk', h]
        · simp [dict_pop, dict_get, hp, hk', ih]

theorem dict_get_set_ne {τ : Type} (d : List (BKey × τ)) (kk k' : BKey)
    (v : τ) (h : k' ≠ kk) :
    dict_get (dict_set d kk v) k' = dict_get d k' := by
  have hne : ¬ kk = k' := fun hc => h hc.symm
  simp only [dict_set, dict_get, hne, if_false, ite_false]
  exact dict_get_pop_ne kk k' h d

/-! ### Claim theorems C5 and C9 -/

/-- C5: for every input blockdims, sorted set of valid reduced axes, and
output key tuple of matching rank: with `keepdims=True` the output block
structure has a `[1]` at every reduced position, matches the input at
every non-reduced position, has the input's rank, and every output key
carries a literal `0` block index at each reduced position; with
`keepdims=False` the output structure is the input's with the reduced
positions removed entirely (in particular its rank is the input's minus
the number of reduced axes). -/
theorem c5_reduction_structure (bd : List (List ℕ)) (axes : List ℕ)
    (idx : List ℕ) (hs : axes.Pairwise (· < ·))
    (hb : ∀ ax ∈ axes, ax < bd.length)
    (hidx : idx.length + axes.length = bd.length) :
    (reduction_blockdims bd axes true).length = bd.length ∧
    (∀ j ∈ axes, (reduction_blockdims bd axes true).getD j [] = [1]) ∧
    (∀ j, j < bd.length → j ∉ axes →
      (reduction_blockdims bd axes true).getD j [] = bd.getD j []) ∧
    (∀ j ∈ axes, (reduction_out_key idx axes true).getD j 1 = 0) ∧
    reduction_blockdims bd axes false = drop_axes bd axes ∧
    (reduction_blockdims bd axes false).length + axes.length = bd.length := by
  have hnd : axes.Nodup := hs.imp (fun h => ne_of_lt h)
  have hdlen : (drop_axes bd axes).length + axes.length = bd.length := by
    have h1 := dropAxesFrom_length axes hnd bd 0
    have h2 : countIn axes 0 (0 + bd.length) = axes.length := by
      rw [show (0 : ℕ) + bd.length = bd.length from by omega]
      exact countIn_all axes bd.length hb
    have h3 : axes.length ≤ bd.length := by
      have h4 := countIn_le axes 0 bd.length hnd
      have h5 := countIn_all axes bd.length hb
      omega
    rw [drop_axes]
    omega
  have hbd : ∀ ax ∈ axes, ax < (drop_axes bd axes).length + axes.length := by
    intro ax hax
    have := hb ax hax
    omega
  refine ⟨?_, ?_, ?_, ?_, rfl, ?_⟩
  · show (insert_many (drop_axes bd axes) axes [1]).length = bd.length
    rw [insert_many_length [1] axes (drop_axes bd axes) hs hbd]
    omega
  · intro j hj
    show (insert_many (drop_axes bd axes) axes [1]).getD j [] = [1]
    exact insert_many_getD_mem [1] [] axes (drop_axes bd axes) j hs hbd hj
  · intro j hjlt hjn
    show (insert_many (drop_axes bd axes) axes [1]).getD j [] = bd.getD j []
    have hjb : j < (drop_axes bd axes).length + axes.length := by omega
    rw [insert_many_getD_not_mem [1] [] axes (drop_axes bd axes) j hs hbd hjn
      hjb]
    have hcnt : (axes.filter (fun x => decide (x < j))).length =
        countIn axes 0 (0 + j) := by
      rw [countIn]
      congr 1
      refine List.filter_congr ?_
      intro a _
      simp only [decide_eq_decide]
      exact ⟨fun h' => ⟨Nat.zero_le a, by omega⟩, fun h' => by omega⟩
    rw [hcnt]
    have hj0 : (0 + j) ∉ axes := by simpa using hjn
    exact dropAxesFrom_getD axes hnd [] bd j 0 hj0 hjlt
  · intro j hj
    show (insert_many idx axes 0).getD j 1 = 0
    refine insert_many_getD_mem 0 1 axes idx j hs ?_ hj
    intro ax hax
    have := hb ax hax
    omega
  · exact hdlen

/-- Witness for C5 at `bd = [[2], [3], [4]]`, `axes = [1]`,
`idx = [7, 8]`. -/
theorem c5_reduction_structure_witness :
    (reduction_blockdims [[2], [3], [4]] [1] true).getD 1 [] = [1] ∧
    (reduction_blockdims [[2], [3], [4]] [1] true).getD 0 [] = [2] ∧
    (reduction_out_key [7, 8] [1] true).getD 1 1 = 0 ∧
    (reduction_blockdims [[2], [3], [4]] [1] false).length + 1 = 3 := by
  have h := c5_reduction_structure [[2], [3], [4]] [1] [7, 8]
    (by simp) (by decide) (by decide)
  exact ⟨h.2.1 1 (by decide), h.2.2.1 0 (by decide) (by decide),
    h.2.2.2.1 1 (by decide), by simpa using h.2.2.2.2.2⟩

/-- C9: the `keepdims` key rewriting acts on a copy of the result's task
dictionary and moves only bindings of the output array's own keys (all of
which carry the output's array name); every binding whose key belongs to
a different array — in particular every one of the input array's tasks —
is left with exactly the value it had before. -/
theorem c9_keepdims_rewrite_frame {τ : Type} (axes : List ℕ)
    (outName : String) (k' : BKey) (hk' : k'.1 ≠ outName) :
    ∀ (out_keys : List BKey) (dsk : List (BKey × τ)),
      (∀ k ∈ out_keys, k.1 = outName) →
      dict_get (keepdims_rewrite axes out_keys dsk) k' = dict_get dsk k' := by
  intro out_keys
  induction out_keys with
  | nil => intro dsk _; rfl
  | cons k ks ih =>
      intro dsk hout
      have hk : k.1 = outName := hout k (List.mem_cons_self k ks)
      have houts : ∀ kk ∈ ks, kk.1 = outName := fun kk hkk =>
        hout kk (List.mem_cons_of_mem k hkk)
      have hne2 : k' ≠ k := by
        intro hc
        exact hk' (by rw [hc]; exact hk)
      rcases hget : dict_get dsk k with _ | v
      · have hstep : keepdims_rewrite axes (k :: ks) dsk =
            keepdims_rewrite axes ks dsk := by
          simp only [keepdims_rewrite, List.foldl_cons, hget]
        rw [hstep, ih dsk houts]
      · have hne1 : k' ≠ (k.1, insert_many k.2 axes 0) := by
          intro hc
          exact hk' (by rw [hc]; exact hk)
        have hstep : keepdims_rewrite axes (k :: ks) dsk =
            keepdims_rewrite axes ks
              (dict_set (dict_pop dsk k) (k.1, insert_many k.2 axes 0) v) := by
          simp only [keepdims_rewrite, List.foldl_cons, hget]
        rw [hstep, ih _ houts,
          dict_get_set_ne (dict_pop dsk k) (k.1, insert_many k.2 axes 0) k' v
            hne1,
          dict_get_pop_ne k k' hne2 dsk]

/-- Witness for C9: a two-entry dictionary holding one input task (array
name `x`) and one output task (array name `y`); rewriting the output key
along axis `0` leaves the input binding untouched. -/
theorem c9_keepdims_rewrite_frame_witness :
    dict_get
      (keepdims_rewrite [0] [( "y", [0])]
        [(( "x", [0]), (10 : ℕ)), (( "y", [0]), 20)]) ( "x", [0]) =
      dict_get [(( "x", [0]), (10 : ℕ)), (( "y", [0]), 20)] ( "x", [0]) :=
  c9_keepdims_rewrite_frame [0] "y" ( "x", [0]) (by decide) [( "y", [0])]
    [(( "x", [0]), (10 : ℕ)), (( "y", [0]), 20)] (by decide)

end DaskRed
